import Mathlib

/-!
Formal model of the rate-limited API queue implemented in
app/services/api_queue.py: the token bucket, the text chunk splitter,
the queue drain loop and the chunked-request coordinator, together with
theorems settling the specified properties against this model.

Modelling conventions:
 - Python floats (token balances, timestamps, durations) are modelled
   as rationals, so the continuous refill arithmetic is exact;
 - Python strings are modelled as lists of characters;
 - Python nonnegative ints are modelled as naturals;
 - the cooperative asyncio scheduling relevant to the drain loop is
   modelled by an explicit deterministic small-step executor whose
   atomic steps are the code segments between awaits.
-/

/-- Token bucket state, app/services/api_queue.py lines 17-32.
`tokens` is the current balance and `last_refill` the timestamp of the
last refill. -/
structure TokenBucket where
  capacity : ℚ
  refill_rate : ℚ
  tokens : ℚ
  last_refill : ℚ

/-- `TokenBucket.__init__` (lines 21-32): the bucket starts full, with
the construction time recorded as the last refill time. -/
def TokenBucket.init (capacity refill_rate now : ℚ) : TokenBucket :=
  { capacity := capacity, refill_rate := refill_rate, tokens := capacity,
    last_refill := now }

/-- `TokenBucket.refill` (lines 34-40): add `elapsed * refill_rate`
tokens, clamp to `capacity`, update the timestamp.  `now` is the
current wall-clock time, passed explicitly in place of `time.time()`. -/
def TokenBucket.refill (b : TokenBucket) (now : ℚ) : TokenBucket :=
  { b with
      tokens := min b.capacity (b.tokens + (now - b.last_refill) * b.refill_rate)
      last_refill := now }

/-- `TokenBucket.consume` (lines 42-56): refill, then subtract `n` if
the balance suffices, reporting success; otherwise leave the refilled
balance and report failure. -/
def TokenBucket.consume (b : TokenBucket) (n now : ℚ) : Bool × TokenBucket :=
  if n ≤ (b.refill now).tokens then
    (true, { b.refill now with tokens := (b.refill now).tokens - n })
  else
    (false, b.refill now)

/-- `TokenBucket.get_wait_time` (lines 58-73): refill, then report 0 if
the balance suffices, else the time for the missing tokens to refill. -/
def TokenBucket.get_wait_time (b : TokenBucket) (n now : ℚ) : ℚ × TokenBucket :=
  if n ≤ (b.refill now).tokens then (0, b.refill now)
  else ((n - (b.refill now).tokens) / b.refill_rate, b.refill now)

@[simp] lemma refill_capacity (b : TokenBucket) (now : ℚ) :
    (b.refill now).capacity = b.capacity := rfl

@[simp] lemma refill_rate_eq (b : TokenBucket) (now : ℚ) :
    (b.refill now).refill_rate = b.refill_rate := rfl

@[simp] lemma refill_last (b : TokenBucket) (now : ℚ) :
    (b.refill now).last_refill = now := rfl

lemma refill_tokens (b : TokenBucket) (now : ℚ) :
    (b.refill now).tokens
      = min b.capacity (b.tokens + (now - b.last_refill) * b.refill_rate) := rfl

/-- One externally triggered bucket operation: an explicit refill, a
`consume n`, or a `get_wait_time n` query. -/
inductive BOp where
  | doRefill : BOp
  | doConsume : ℚ → BOp
  | doWait : ℚ → BOp

/-- Argument sanity of an operation: consumed amounts are nonnegative
(in the program they are positive integer token estimates). -/
def BOp.argOk : BOp → Prop
  | .doConsume n => 0 ≤ n
  | _ => True

/-- Run one operation after advancing the wall clock by `δ`. -/
def bstep (s : TokenBucket × ℚ) (x : ℚ × BOp) : TokenBucket × ℚ :=
  match x.2 with
  | .doRefill => (s.1.refill (s.2 + x.1), s.2 + x.1)
  | .doConsume n => ((s.1.consume n (s.2 + x.1)).2, s.2 + x.1)
  | .doWait n => ((s.1.get_wait_time n (s.2 + x.1)).2, s.2 + x.1)

/-- Run a sequence of clock advances and operations on a freshly
constructed bucket. -/
def brun (capacity refill_rate t0 : ℚ) (ops : List (ℚ × BOp)) :
    TokenBucket × ℚ :=
  ops.foldl bstep (TokenBucket.init capacity refill_rate t0, t0)

/-- The bucket invariant: configuration fields are fixed, the clock is
not behind the last refill, and the balance is within bounds. -/
def bucketInv (cap rate : ℚ) (s : TokenBucket × ℚ) : Prop :=
  s.1.capacity = cap ∧ s.1.refill_rate = rate ∧ s.1.last_refill ≤ s.2 ∧
    0 ≤ s.1.tokens ∧ s.1.tokens ≤ cap

lemma refill_bounds {cap rate : ℚ} (b : TokenBucket) (now : ℚ)
    (hcap0 : 0 ≤ cap) (hrate : 0 ≤ rate)
    (hc : b.capacity = cap) (hr : b.refill_rate = rate)
    (hl : b.last_refill ≤ now) (h0 : 0 ≤ b.tokens) :
    0 ≤ (b.refill now).tokens ∧ (b.refill now).tokens ≤ cap := by
  rw [refill_tokens, hc, hr]
  constructor
  · exact le_min hcap0 (add_nonneg h0 (mul_nonneg (sub_nonneg.mpr hl) hrate))
  · exact min_le_left _ _

lemma bstep_inv {cap rate : ℚ} (hcap0 : 0 ≤ cap) (hrate : 0 ≤ rate)
    (s : TokenBucket × ℚ) (x : ℚ × BOp) (hd : 0 ≤ x.1) (hx : x.2.argOk)
    (h : bucketInv cap rate s) : bucketInv cap rate (bstep s x) := by
  obtain ⟨b, now⟩ := s
  obtain ⟨d, op⟩ := x
  obtain ⟨hc, hr, hl, h0, h1⟩ := h
  have hl' : b.last_refill ≤ now + d := by
    simp only at hl hd ⊢
    linarith
  have hrb := refill_bounds b (now + d) hcap0 hrate hc hr hl' h0
  cases op with
  | doRefill =>
      exact ⟨hc, hr, le_refl _, hrb.1, hrb.2⟩
  | doConsume n =>
      have hn : 0 ≤ n := hx
      simp only [bstep, TokenBucket.consume]
      split
      case isTrue hle =>
        refine ⟨hc, hr, le_refl _, ?_, ?_⟩
        · exact sub_nonneg.mpr hle
        · calc (b.refill (now + d)).tokens - n ≤ (b.refill (now + d)).tokens := by
                linarith
            _ ≤ cap := hrb.2
      case isFalse hgt =>
        exact ⟨hc, hr, le_refl _, hrb.1, hrb.2⟩
  | doWait n =>
      simp only [bstep, TokenBucket.get_wait_time]
      split
      · exact ⟨hc, hr, le_refl _, hrb.1, hrb.2⟩
      · exact ⟨hc, hr, le_refl _, hrb.1, hrb.2⟩

lemma brun_inv {cap rate : ℚ} (hcap0 : 0 ≤ cap) (hrate : 0 ≤ rate)
    (ops : List (ℚ × BOp)) (s : TokenBucket × ℚ)
    (hops : ∀ x ∈ ops, 0 ≤ x.1 ∧ x.2.argOk) (h : bucketInv cap rate s) :
    bucketInv cap rate (ops.foldl bstep s) := by
  induction ops generalizing s with
  | nil => exact h
  | cons x xs ih =>
      exact ih _ (fun y hy => hops y (List.mem_cons_of_mem x hy))
        (bstep_inv hcap0 hrate s x (hops x (List.mem_cons_self x xs)).1
          (hops x (List.mem_cons_self x xs)).2 h)

/-- C2: for every sequence of consume calls, wait-time queries, refills
and nonnegative wall-clock advances applied to a bucket created with
capacity `cap` (starting balance `cap`), the balance satisfies
`0 ≤ tokens ≤ cap` after every prefix of the sequence, i.e. after every
operation. -/
theorem claim_C2_bucket_bounds (cap rate t0 : ℚ) (ops pre suf : List (ℚ × BOp))
    (hcap0 : 0 ≤ cap) (hrate : 0 ≤ rate)
    (hops : ∀ x ∈ ops, 0 ≤ x.1 ∧ x.2.argOk)
    (hsplit : ops = pre ++ suf) :
    0 ≤ (brun cap rate t0 pre).1.tokens ∧
      (brun cap rate t0 pre).1.tokens ≤ cap := by
  have h := brun_inv hcap0 hrate pre (TokenBucket.init cap rate t0, t0)
    (fun x hx => hops x (by rw [hsplit]; exact List.mem_append_left suf hx))
    ⟨rfl, rfl, le_refl _, hcap0, le_refl _⟩
  exact ⟨h.2.2.2.1, h.2.2.2.2⟩

/-- Witness for C2 at a concrete run: a bucket of capacity 100 at
10 tokens per second, with a consume of 80, a one-second advance and a
wait query. -/
theorem claim_C2_bucket_bounds_witness :
    0 ≤ (brun 100 10 0 [(0, BOp.doConsume 80), (1, BOp.doWait 30)]).1.tokens ∧
      (brun 100 10 0 [(0, BOp.doConsume 80), (1, BOp.doWait 30)]).1.tokens ≤ 100 := by
  apply claim_C2_bucket_bounds 100 10 0
    [(0, BOp.doConsume 80), (1, BOp.doWait 30)]
    [(0, BOp.doConsume 80), (1, BOp.doWait 30)] [] (by norm_num) (by norm_num)
  · intro x hx
    simp only [List.mem_cons, List.not_mem_nil, or_false] at hx
    rcases hx with h | h <;> subst h <;> exact ⟨by norm_num, by norm_num [BOp.argOk]⟩
  · simp

/-- C3: `consume n` is atomic with respect to the (lazily refilled)
balance: it either succeeds and the balance decreases by exactly `n`
from the refilled balance, or fails and leaves the refilled balance
unchanged — never a partial subtraction.  (Per the code, `consume`
first performs the lazy `refill`; "the balance" at the decision point
is the refilled balance.) -/
theorem claim_C3_consume_atomic (b : TokenBucket) (n now : ℚ) :
    ((b.consume n now).1 = true ∧
        (b.consume n now).2.tokens = (b.refill now).tokens - n) ∨
      ((b.consume n now).1 = false ∧
        (b.consume n now).2.tokens = (b.refill now).tokens) := by
  by_cases h : n ≤ (b.refill now).tokens
  · left
    simp [TokenBucket.consume, h]
  · right
    simp [TokenBucket.consume, h]

lemma wait_then_consume (b : TokenBucket) (n now : ℚ)
    (hrate : 0 < b.refill_rate) (hn : n ≤ b.capacity) :
    ((b.get_wait_time n now).2.consume n
        (now + (b.get_wait_time n now).1)).1 = true := by
  have htokle : (b.refill now).tokens ≤ b.capacity := by
    rw [refill_tokens]
    exact min_le_left _ _
  by_cases h : n ≤ (b.refill now).tokens
  · have hw : b.get_wait_time n now = (0, b.refill now) := by
      simp [TokenBucket.get_wait_time, h]
    rw [hw]
    have htok : ((b.refill now).refill (now + 0)).tokens = (b.refill now).tokens := by
      rw [refill_tokens]
      simp only [refill_capacity, refill_last, add_zero, sub_self, zero_mul]
      exact min_eq_right htokle
    simp only [TokenBucket.consume, htok, h, if_true]
  · have hw : b.get_wait_time n now
        = ((n - (b.refill now).tokens) / b.refill_rate, b.refill now) := by
      simp [TokenBucket.get_wait_time, h]
    rw [hw]
    have htok : ((b.refill now).refill
        (now + (n - (b.refill now).tokens) / b.refill_rate)).tokens = n := by
      rw [refill_tokens]
      simp only [refill_capacity, refill_last, refill_rate_eq]
      have harith : now + (n - (b.refill now).tokens) / b.refill_rate - now
          = (n - (b.refill now).tokens) / b.refill_rate := by ring
      rw [harith, div_mul_cancel₀ _ (ne_of_gt hrate)]
      have : (b.refill now).tokens + (n - (b.refill now).tokens) = n := by ring
      rw [this]
      exact min_eq_right hn
    simp only [TokenBucket.consume, htok, le_refl, if_true]

/-- A concrete full bucket of capacity 100 refilling 10 tokens per
second, used to exercise the wait-then-consume behaviour. -/
def waitDemoBucket : TokenBucket :=
  { capacity := 100, refill_rate := 10, tokens := 100, last_refill := 0 }

/-- C4 counterexample: for a full bucket of capacity 100 (10 tokens per
second) and a request of 200 tokens, `get_wait_time` answers 10 seconds,
yet after exactly those 10 seconds with no other consumption `consume`
still fails: the bucket is clamped at its capacity and 200 tokens never
become available.  The claim as stated, quantified over every requested
amount, is therefore false. -/
theorem claim_C4_counterexample :
    ((waitDemoBucket.get_wait_time 200 0).2.consume 200
        (0 + (waitDemoBucket.get_wait_time 200 0).1)).1 = false := by
  norm_num [waitDemoBucket, TokenBucket.get_wait_time, TokenBucket.consume,
    TokenBucket.refill]

/-- C4 amended: if the requested amount does not exceed the bucket
capacity (and the refill rate is positive), then after exactly
`get_wait_time n` seconds with no other consumption, `consume n`
succeeds. -/
theorem claim_C4_wait_time (b : TokenBucket) (n now : ℚ)
    (hrate : 0 < b.refill_rate) (hn : n ≤ b.capacity) :
    ((b.get_wait_time n now).2.consume n
        (now + (b.get_wait_time n now).1)).1 = true :=
  wait_then_consume b n now hrate hn

/-- Witness for the amended C4: requesting 90 tokens from the concrete
demo bucket. -/
theorem claim_C4_wait_time_witness :
    ((waitDemoBucket.get_wait_time 90 0).2.consume 90
        (0 + (waitDemoBucket.get_wait_time 90 0).1)).1 = true :=
  claim_C4_wait_time waitDemoBucket 90 0 (by norm_num [waitDemoBucket])
    (by norm_num [waitDemoBucket])

/-- Python strings are modelled as lists of characters. -/
abbrev Str := List Char

/-- `leadsWith pat s` is true when `pat` occurs at the start of `s`. -/
def leadsWith : Str → Str → Bool
  | [], _ => true
  | _ :: _, [] => false
  | a :: as, b :: bs => a == b && leadsWith as bs

/-- Left-to-right scanner behind `pySplit`: `acc` holds the characters
of the current piece in reverse.  The fuel argument makes the recursion
structural; it is always called with fuel at least the length of the
string, so the fuel-exhausted equation is never reached. -/
def splitGo (sep : Str) : Nat → Str → Str → List Str
  | _, [], acc => [acc.reverse]
  | 0, s, acc => [acc.reverse ++ s]
  | fuel + 1, ch :: rest, acc =>
      if sep ≠ [] ∧ leadsWith sep (ch :: rest) = true then
        acc.reverse :: splitGo sep fuel (List.drop sep.length (ch :: rest)) []
      else
        splitGo sep fuel rest (ch :: acc)

/-- Python `str.split(sep)` for a nonempty separator: splits on
non-overlapping occurrences left to right; the empty string yields
one empty piece. -/
def pySplit (sep s : Str) : List Str :=
  splitGo sep s.length s []

/-- Scanner behind `pyReplace`, fueled like `splitGo`. -/
def replaceGo (old new : Str) : Nat → Str → Str
  | _, [] => []
  | 0, s => s
  | fuel + 1, ch :: rest =>
      if old ≠ [] ∧ leadsWith old (ch :: rest) = true then
        new ++ replaceGo old new fuel (List.drop old.length (ch :: rest))
      else
        ch :: replaceGo old new fuel rest

/-- Python `str.replace(old, new)` for a nonempty `old`: replaces
non-overlapping occurrences left to right. -/
def pyReplace (old new s : Str) : Str :=
  replaceGo old new s.length s

/-- Python `sep.join(pieces)`. -/
def joinSep (sep : Str) : List Str → Str
  | [] => []
  | [x] => x
  | x :: y :: rest => x ++ sep ++ joinSep sep (y :: rest)

/-- The paragraph separator, two newline characters. -/
def sepPar : Str := ['\n', '\n']

/-- One step of the innermost loop of `_split_text` (lines 275-280):
greedy packing of the words of an over-long sentence.  The state is the
pair (chunks so far, current chunk).  Note the flush appends the
current chunk even when it is empty, and words are never split. -/
def wordStep (maxChars : Nat) (st : List Str × Str) (w : Str) : List Str × Str :=
  if maxChars < st.2.length + w.length + 1 then
    (st.1 ++ [st.2], w ++ [' '])
  else
    (st.1, st.2 ++ w ++ [' '])

/-- One step of the sentence loop of `_split_text` (lines 266-284):
sentences of an over-long paragraph are packed greedily; a sentence
still over budget falls through to word packing.  On a flush the
current chunk is appended only when nonempty. -/
def sentStep (maxChars : Nat) (st : List Str × Str) (s : Str) : List Str × Str :=
  if maxChars < st.2.length + s.length then
    if maxChars < s.length then
      (pySplit [' '] s).foldl (wordStep maxChars)
        (if st.2 ≠ [] then st.1 ++ [st.2] else st.1, [])
    else
      (if st.2 ≠ [] then st.1 ++ [st.2] else st.1, s ++ [' '])
  else
    (st.1, st.2 ++ s ++ [' '])

/-- One step of the paragraph loop of `_split_text` (lines 255-288):
paragraphs are packed greedily; a paragraph still over budget is split
into sentences by rewriting `". "` to `".\n"` and splitting on `"\n"`. -/
def paraStep (maxChars : Nat) (st : List Str × Str) (p : Str) : List Str × Str :=
  if maxChars < st.2.length + p.length then
    if maxChars < p.length then
      (pySplit ['\n'] (pyReplace ['.', ' '] ['.', '\n'] p)).foldl
        (sentStep maxChars)
        (if st.2 ≠ [] then st.1 ++ [st.2] else st.1, [])
    else
      (if st.2 ≠ [] then st.1 ++ [st.2] else st.1, p ++ sepPar)
  else
    (st.1, st.2 ++ p ++ sepPar)

/-- `ClaudeAPIQueue._split_text` (lines 230-294): split `text` into
chunks of approximately `max_tokens` tokens (4 characters per token),
splitting at paragraph, then sentence, then word boundaries; a final
nonempty current chunk is appended at the end. -/
def split_text (text : Str) (max_tokens : Nat) : List Str :=
  if text.length ≤ max_tokens * 4 then [text]
  else
    if ((pySplit sepPar text).foldl (paraStep (max_tokens * 4)) ([], [])).2 ≠ [] then
      ((pySplit sepPar text).foldl (paraStep (max_tokens * 4)) ([], [])).1
        ++ [((pySplit sepPar text).foldl (paraStep (max_tokens * 4)) ([], [])).2]
    else
      ((pySplit sepPar text).foldl (paraStep (max_tokens * 4)) ([], [])).1

/-- `ClaudeAPIQueue.estimate_tokens` (lines 100-111): a crude estimate
of 4 characters per token, `len(text) // 4 + 1`. -/
def estimate_tokens (text : Str) : Nat :=
  text.length / 4 + 1

/-- `ClaudeAPIQueue.max_chunk_size` (line 92): the per-call ceiling. -/
def max_chunk_size : Nat := 15000

/-- The two paths `add_request` can take for a prompt. -/
inductive Route where
  | direct : Route
  | chunked : Route
deriving DecidableEq

/-- The routing decision of `ClaudeAPIQueue.add_request`
(lines 126-156): estimate `estimate_tokens(prompt) + max_tokens`; go
through `_process_large_request` when the estimate exceeds
`max_chunk_size`, otherwise enqueue the prompt directly. -/
def add_request_route (prompt : Str) (max_tokens : Nat) : Route :=
  if max_chunk_size < estimate_tokens prompt + max_tokens then Route.chunked
  else Route.direct

/-- Modelled from the spec: the estimated total token cost as the
specification words it, `len(prompt)/4 + maxOutputTokens`, with no
`+ 1` term.  Kept separate from `estimate_tokens`, which is translated
from the code, to compare the two. -/
def spec_estimate (prompt : Str) (max_tokens : Nat) : Nat :=
  prompt.length / 4 + max_tokens

lemma leadsWith_append : ∀ (p l : Str), leadsWith p l = true →
    p ++ List.drop p.length l = l
  | [], l, _ => by simp
  | a :: as, [], h => by simp [leadsWith] at h
  | a :: as, b :: bs, h => by
      simp only [leadsWith, Bool.and_eq_true, beq_iff_eq] at h
      obtain ⟨hab, htail⟩ := h
      simp only [List.length_cons, List.drop_succ_cons, List.cons_append]
      rw [leadsWith_append as bs htail, hab]

lemma splitGo_ne_nil (sep : Str) (fuel : Nat) (s acc : Str) :
    splitGo sep fuel s acc ≠ [] := by
  induction fuel, s, acc using splitGo.induct sep with
  | case1 fuel acc => simp [splitGo]
  | case2 s acc => simp [splitGo]
  | case3 fuel ch rest acc h ih => simp [splitGo, if_pos h]
  | case4 fuel ch rest acc h ih => simpa [splitGo, if_neg h] using ih

lemma joinSep_cons (sep x : Str) (l : List Str) (h : l ≠ []) :
    joinSep sep (x :: l) = x ++ sep ++ joinSep sep l := by
  cases l with
  | nil => exact absurd rfl h
  | cons y r => rfl

lemma splitGo_joinSep (sep : Str) (fuel : Nat) (s acc : Str) :
    joinSep sep (splitGo sep fuel s acc) = acc.reverse ++ s := by
  induction fuel, s, acc using splitGo.induct sep with
  | case1 fuel acc => simp [splitGo, joinSep]
  | case2 s acc => simp [splitGo, joinSep]
  | case3 fuel ch rest acc h ih =>
      simp only [splitGo, if_pos h]
      rw [joinSep_cons sep _ _ (splitGo_ne_nil sep fuel _ [])]
      rw [ih]
      simp only [List.reverse_nil, List.nil_append, List.append_assoc]
      rw [leadsWith_append sep (ch :: rest) h.2]
  | case4 fuel ch rest acc h ih =>
      simp only [splitGo, if_neg h]
      rw [ih]
      simp

/-- Joining the pieces of `pySplit` with the separator reconstructs the
original string (the Python split/join round trip). -/
lemma pySplit_joinSep (sep s : Str) : joinSep sep (pySplit sep s) = s := by
  simpa using splitGo_joinSep sep s.length s []

lemma flatten_map_append_sep (sep : Str) : ∀ (ps : List Str), ps ≠ [] →
    List.flatten (ps.map (fun p => p ++ sep)) = joinSep sep ps ++ sep := by
  intro ps
  induction ps with
  | nil => intro h; exact absurd rfl h
  | cons x l ih =>
      intro _
      cases l with
      | nil => simp [joinSep]
      | cons y r =>
          have hne : (y :: r : List Str) ≠ [] := by simp
          rw [List.map_cons, List.flatten_cons]
          rw [ih hne, joinSep_cons sep x (y :: r) hne]
          simp [List.append_assoc]

lemma paraStep_flatten (m : Nat) (chunks : List Str) (cur p : Str)
    (hp : p.length ≤ m) :
    List.flatten (paraStep m (chunks, cur) p).1 ++ (paraStep m (chunks, cur) p).2
      = List.flatten chunks ++ (cur ++ (p ++ sepPar)) := by
  simp only [paraStep]
  by_cases hflush : m < cur.length + p.length
  · rw [if_pos hflush, if_neg (not_lt.mpr hp)]
    by_cases hcur : cur = []
    · subst hcur
      rw [if_neg (by simp)]
      simp
    · rw [if_pos hcur]
      simp [List.append_assoc]
  · rw [if_neg hflush]
    simp [List.append_assoc]

lemma paraFold_flatten (m : Nat) : ∀ (ps : List Str) (chunks : List Str) (cur : Str),
    (∀ p ∈ ps, p.length ≤ m) →
    List.flatten ((ps.foldl (paraStep m) (chunks, cur)).1)
        ++ (ps.foldl (paraStep m) (chunks, cur)).2
      = List.flatten chunks ++ cur ++ List.flatten (ps.map (fun p => p ++ sepPar)) := by
  intro ps
  induction ps with
  | nil =>
      intro chunks cur _
      simp
  | cons p ps ih =>
      intro chunks cur hfit
      have hp : p.length ≤ m := hfit p (List.mem_cons_self p ps)
      have hrest : ∀ q ∈ ps, q.length ≤ m :=
        fun q hq => hfit q (List.mem_cons_of_mem p hq)
      simp only [List.foldl_cons, List.map_cons, List.flatten_cons]
      have hstep := paraStep_flatten m chunks cur p hp
      rw [show paraStep m (chunks, cur) p
            = ((paraStep m (chunks, cur) p).1, (paraStep m (chunks, cur) p).2) from rfl]
      rw [ih _ _ hrest, hstep]
      simp [List.append_assoc]

/-- C5 counterexample: the text `"A\n\nBC"` with a budget of 1 token
(4 characters — at least one word's worth for its words `"A"` and
`"BC"`) splits into chunks whose concatenation — nothing here carries a
preamble or a part annotation to strip — is `"A\n\nBC\n\n"`, not the
original text: the splitter appends a paragraph separator after every
paragraph, so the round trip as claimed fails. -/
theorem claim_C5_counterexample :
    split_text ['A', '\n', '\n', 'B', 'C'] 1
        = [['A', '\n', '\n'], ['B', 'C', '\n', '\n']] ∧
      List.flatten (split_text ['A', '\n', '\n', 'B', 'C'] 1)
        ≠ ['A', '\n', '\n', 'B', 'C'] := by
  constructor
  · decide
  · decide

/-- C5 amended: when the text exceeds the budget and every paragraph
fits within the character budget (so only the paragraph-level packing
runs), concatenating the chunks of `_split_text` reproduces the
original text with one extra paragraph separator `"\n\n"` appended;
exact reconstruction fails in general because the splitter appends a
separator after every paragraph and the sentence and word fallbacks
rewrite `". "` and newlines. -/
theorem claim_C5_roundtrip (text : Str) (mt : Nat)
    (hbig : mt * 4 < text.length)
    (hfit : ∀ p ∈ pySplit sepPar text, p.length ≤ mt * 4) :
    List.flatten (split_text text mt) = text ++ sepPar := by
  unfold split_text
  rw [if_neg (not_le.mpr hbig)]
  have hfold := paraFold_flatten (mt * 4) (pySplit sepPar text) [] [] hfit
  have hflat : List.flatten
      ((if ((pySplit sepPar text).foldl (paraStep (mt * 4)) ([], [])).2 ≠ [] then
          ((pySplit sepPar text).foldl (paraStep (mt * 4)) ([], [])).1
            ++ [((pySplit sepPar text).foldl (paraStep (mt * 4)) ([], [])).2]
        else ((pySplit sepPar text).foldl (paraStep (mt * 4)) ([], [])).1))
      = List.flatten ((pySplit sepPar text).foldl (paraStep (mt * 4)) ([], [])).1
          ++ ((pySplit sepPar text).foldl (paraStep (mt * 4)) ([], [])).2 := by
    by_cases hcur : ((pySplit sepPar text).foldl (paraStep (mt * 4)) ([], [])).2 = []
    · rw [if_neg (by simpa using hcur), hcur]
      simp
    · rw [if_pos hcur]
      simp
  rw [hflat, hfold]
  rw [flatten_map_append_sep sepPar (pySplit sepPar text)
    (splitGo_ne_nil sepPar text.length text [])]
  rw [pySplit_joinSep]
  simp

/-- Witness for the amended C5: the counterexample text itself has both
paragraphs within budget, and its chunks concatenate to the text plus
one trailing separator. -/
theorem claim_C5_roundtrip_witness :
    List.flatten (split_text ['A', '\n', '\n', 'B', 'C'] 1)
      = ['A', '\n', '\n', 'B', 'C'] ++ sepPar :=
  claim_C5_roundtrip ['A', '\n', '\n', 'B', 'C'] 1 (by decide) (by decide)

lemma splitGo_single_not_mem (c : Char) : ∀ (fuel : Nat) (s acc : Str),
    s.length ≤ fuel → (∀ a ∈ acc, a ≠ c) →
    ∀ p ∈ splitGo [c] fuel s acc, c ∉ p := by
  intro fuel s acc
  induction fuel, s, acc using splitGo.induct [c] with
  | case1 fuel acc =>
      intro _ hacc p hp
      simp only [splitGo, List.mem_singleton] at hp
      subst hp
      simp only [List.mem_reverse]
      intro hc
      exact hacc c hc rfl
  | case2 s acc =>
      intro hlen hacc p hp
      have hs : s = [] := List.eq_nil_of_length_eq_zero (Nat.le_zero.mp hlen)
      subst hs
      simp only [splitGo, List.mem_singleton] at hp
      subst hp
      simp only [List.mem_reverse]
      intro hc
      exact hacc c hc rfl
  | case3 fuel ch rest acc h ih =>
      intro hlen hacc p hp
      simp only [splitGo, if_pos h, List.mem_cons] at hp
      rcases hp with hp | hp
      · subst hp
        simp only [List.mem_reverse]
        intro hc
        exact hacc c hc rfl
      · refine ih ?_ (by simp) p hp
        simp only [List.length_cons] at hlen
        simp only [List.length_drop, List.length_cons, List.length_singleton]
        omega
  | case4 fuel ch rest acc h ih =>
      intro hlen hacc p hp
      have hch : ch ≠ c := by
        intro hcc
        subst hcc
        exact h ⟨by simp, by simp [leadsWith]⟩
      refine ih ?_ ?_ p ?_
      · simp only [List.length_cons] at hlen
        omega
      · intro a ha
        rcases List.mem_cons.mp ha with ha | ha
        · subst ha; exact hch
        · exact hacc a ha
      · simpa only [splitGo, if_neg h] using hp

/-- Every piece of a single-character split is free of that character. -/
lemma pySplit_single_not_mem (c : Char) (s : Str) :
    ∀ p ∈ pySplit [c] s, c ∉ p :=
  splitGo_single_not_mem c s.length s [] (le_refl _) (by simp)

/-- The size discipline `_split_text` actually maintains for every
emitted chunk and for the chunk under construction: at most two
characters over the character budget (the trailing `"\n\n"` appended
after a paragraph), unless the chunk is a single space-free word, plus
the trailing space, that itself overflows the budget. -/
def ChunkOk (m : Nat) (c : Str) : Prop :=
  c.length ≤ m + 2 ∨ ∃ w : Str, c = w ++ [' '] ∧ ' ' ∉ w ∧ m < w.length + 1

/-- The invariant on the splitter state: every emitted chunk and the
current chunk satisfy `ChunkOk`. -/
def StOk (m : Nat) (st : List Str × Str) : Prop :=
  (∀ c ∈ st.1, ChunkOk m c) ∧ ChunkOk m st.2

lemma foldl_preserve {α β : Type} (f : β → α → β) (P : β → Prop) (Q : α → Prop)
    (hstep : ∀ b a, Q a → P b → P (f b a)) :
    ∀ (l : List α), (∀ a ∈ l, Q a) → ∀ b, P b → P (l.foldl f b) := by
  intro l
  induction l with
  | nil => intro _ b hb; exact hb
  | cons a l ih =>
      intro hl b hb
      exact ih (fun x hx => hl x (List.mem_cons_of_mem a hx)) (f b a)
        (hstep b a (hl a (List.mem_cons_self a l)) hb)

lemma chunks_flush_ok {m : Nat} {chunks : List Str} {cur : Str}
    (h1 : ∀ c ∈ chunks, ChunkOk m c) (h2 : ChunkOk m cur) :
    ∀ c ∈ (if cur ≠ [] then chunks ++ [cur] else chunks), ChunkOk m c := by
  split_ifs with hcur
  · intro c hc
    rcases List.mem_append.mp hc with hc | hc
    · exact h1 c hc
    · rw [List.mem_singleton.mp hc]
      exact h2
  · exact h1

lemma wordStep_ok {m : Nat} (st : List Str × Str) (w : Str)
    (hw : ' ' ∉ w) (h : StOk m st) : StOk m (wordStep m st w) := by
  obtain ⟨chunks, cur⟩ := st
  obtain ⟨h1, h2⟩ := h
  simp only [wordStep]
  split_ifs with hflush
  · constructor
    · intro c hc
      rcases List.mem_append.mp hc with hc | hc
      · exact h1 c hc
      · rw [List.mem_singleton.mp hc]
        exact h2
    · by_cases hbig : m < w.length + 1
      · exact Or.inr ⟨w, rfl, hw, hbig⟩
      · left
        simp only [List.length_append, List.length_singleton]
        omega
  · refine ⟨h1, Or.inl ?_⟩
    simp only [not_lt] at hflush
    simp only [List.length_append, List.length_singleton]
    omega

lemma sentStep_ok {m : Nat} (chunks : List Str) (cur s : Str)
    (h1 : ∀ c ∈ chunks, ChunkOk m c) (h2 : ChunkOk m cur) :
    StOk m (sentStep m (chunks, cur) s) := by
  unfold sentStep
  by_cases hflush : m < (chunks, cur).2.length + s.length
  · rw [if_pos hflush]
    by_cases hlong : m < s.length
    · rw [if_pos hlong]
      exact foldl_preserve (wordStep m) (StOk m) (fun w => ' ' ∉ w)
        (fun b a ha hb => wordStep_ok b a ha hb)
        (pySplit [' '] s) (pySplit_single_not_mem ' ' s) _
        ⟨chunks_flush_ok h1 h2, Or.inl (by simp)⟩
    · rw [if_neg hlong]
      refine ⟨chunks_flush_ok h1 h2, Or.inl ?_⟩
      simp only [not_lt] at hlong
      simp only [List.length_append, List.length_singleton]
      omega
  · rw [if_neg hflush]
    refine ⟨h1, Or.inl ?_⟩
    simp only [not_lt] at hflush
    simp only [List.length_append, List.length_singleton]
    omega

lemma paraStep_ok {m : Nat} (chunks : List Str) (cur p : Str)
    (h1 : ∀ c ∈ chunks, ChunkOk m c) (h2 : ChunkOk m cur) :
    StOk m (paraStep m (chunks, cur) p) := by
  unfold paraStep
  by_cases hflush : m < (chunks, cur).2.length + p.length
  · rw [if_pos hflush]
    by_cases hlong : m < p.length
    · rw [if_pos hlong]
      exact foldl_preserve (sentStep m) (StOk m) (fun _ => True)
        (fun b a _ hb => sentStep_ok b.1 b.2 a hb.1 hb.2)
        (pySplit ['\n'] (pyReplace ['.', ' '] ['.', '\n'] p)) (fun _ _ => trivial) _
        ⟨chunks_flush_ok h1 h2, Or.inl (by simp)⟩
    · rw [if_neg hlong]
      refine ⟨chunks_flush_ok h1 h2, Or.inl ?_⟩
      simp only [not_lt] at hlong
      simp only [sepPar, List.length_append, List.length_cons, List.length_nil]
      omega
  · rw [if_neg hflush]
    refine ⟨h1, Or.inl ?_⟩
    simp only [not_lt] at hflush
    simp only [sepPar, List.length_append, List.length_cons, List.length_nil]
    omega

lemma split_text_chunkOk (text : Str) (mt : Nat) :
    ∀ c ∈ split_text text mt, ChunkOk (mt * 4) c := by
  intro c hc
  unfold split_text at hc
  by_cases hsmall : text.length ≤ mt * 4
  · rw [if_pos hsmall] at hc
    rw [List.mem_singleton.mp hc]
    exact Or.inl (by omega)
  · rw [if_neg hsmall] at hc
    have hst : StOk (mt * 4)
        ((pySplit sepPar text).foldl (paraStep (mt * 4)) ([], [])) :=
      foldl_preserve (paraStep (mt * 4)) (StOk (mt * 4)) (fun _ => True)
        (fun b a _ hb => paraStep_ok b.1 b.2 a hb.1 hb.2) (pySplit sepPar text)
        (fun _ _ => trivial) ([], []) ⟨by simp, Or.inl (by simp)⟩
    exact chunks_flush_ok hst.1 hst.2 c hc

/-- C6 counterexample: with a budget of 1 token (4 characters), the
text `"ab\n\ncd"` splits into two chunks; the first, `"ab\n\n"`, has
estimated cost 2 > 1, yet it is not an irreducible over-long word: its
only word is the whole chunk, of length 4 ≤ 4 characters.  The bound as
claimed (estimate ≤ budget except for over-long single words) is
therefore false: paragraph packing alone overshoots the budget. -/
theorem claim_C6_counterexample :
    (split_text ['a', 'b', '\n', '\n', 'c', 'd'] 1).head?
        = some ['a', 'b', '\n', '\n'] ∧
      1 < estimate_tokens ['a', 'b', '\n', '\n'] ∧
      pySplit [' '] ['a', 'b', '\n', '\n'] = [['a', 'b', '\n', '\n']] ∧
      List.length ['a', 'b', '\n', '\n'] ≤ 1 * 4 := by
  refine ⟨?_, ?_, ?_, ?_⟩ <;> decide

/-- C6 amended: every chunk produced by `_split_text` has estimated
token cost at most `max_tokens + 1` (its character length is at most
`4 * max_tokens + 2`, the slack coming from separators appended after
packed pieces), except a chunk consisting of a single irreducible
space-free word, plus its trailing space, whose length exceeds the
character budget. -/
theorem claim_C6_chunk_bound (text : Str) (mt : Nat) :
    ∀ c ∈ split_text text mt,
      estimate_tokens c ≤ mt + 1 ∨
        ∃ w : Str, c = w ++ [' '] ∧ ' ' ∉ w ∧ mt * 4 < w.length + 1 := by
  intro c hc
  rcases split_text_chunkOk text mt c hc with h | h
  · left
    unfold estimate_tokens
    omega
  · exact Or.inr h

/-- Witness for the amended C6 at the counterexample text: the chunk
`"ab\n\n"` of the split of `"ab\n\ncd"` under budget 1 satisfies the
amended bound. -/
theorem claim_C6_chunk_bound_witness :
    estimate_tokens ['a', 'b', '\n', '\n'] ≤ 1 + 1 ∨
      ∃ w : Str, (['a', 'b', '\n', '\n'] : Str) = w ++ [' '] ∧ ' ' ∉ w ∧
        1 * 4 < w.length + 1 :=
  claim_C6_chunk_bound ['a', 'b', '\n', '\n', 'c', 'd'] 1 ['a', 'b', '\n', '\n']
    (by decide)

/-- C7 counterexample: for the prompt `"abcd"` (4 characters) and a
requested output of 14999 tokens, the cost computed as the claim words
it is `4/4 + 14999 = 15000 ≤ 15000`, so the claim predicts the direct
path; but the code computes `4//4 + 1 + 14999 = 15001` — the estimator
is `len//4 + 1`, not `len/4` — and takes the chunked path. -/
theorem claim_C7_counterexample :
    spec_estimate ['a', 'b', 'c', 'd'] 14999 ≤ max_chunk_size ∧
      estimate_tokens ['a', 'b', 'c', 'd'] + 14999
        ≠ spec_estimate ['a', 'b', 'c', 'd'] 14999 ∧
      add_request_route ['a', 'b', 'c', 'd'] 14999 = Route.chunked := by
  refine ⟨by decide, by decide, by decide⟩

/-- C7 amended: `add_request` estimates the total cost as
`len(prompt) // 4 + 1 + max_tokens` (the estimator adds one) and takes
the direct single-request path exactly when that estimate is at most
the per-call ceiling of 15000, chunking otherwise. -/
theorem claim_C7_route (p : Str) (m : Nat) :
    estimate_tokens p + m = p.length / 4 + 1 + m ∧
      (add_request_route p m = Route.direct ↔
        p.length / 4 + 1 + m ≤ max_chunk_size) := by
  refine ⟨rfl, ?_⟩
  by_cases h : max_chunk_size < estimate_tokens p + m
  · unfold add_request_route
    rw [if_pos h]
    simp only [estimate_tokens, max_chunk_size] at h
    simp only [max_chunk_size]
    constructor
    · intro hcon
      exact absurd hcon (by decide)
    · intro hle
      exact absurd hle (by omega)
  · unfold add_request_route
    rw [if_neg h]
    simp only [estimate_tokens, max_chunk_size, not_lt] at h
    simp only [max_chunk_size]
    exact ⟨fun _ => h, fun _ => trivial⟩

lemma consume_capacity (b : TokenBucket) (n now : ℚ) :
    (b.consume n now).2.capacity = b.capacity := by
  unfold TokenBucket.consume
  split_ifs <;> rfl

lemma consume_rate (b : TokenBucket) (n now : ℚ) :
    (b.consume n now).2.refill_rate = b.refill_rate := by
  unfold TokenBucket.consume
  split_ifs <;> rfl

lemma consume_last (b : TokenBucket) (n now : ℚ) :
    (b.consume n now).2.last_refill = now := by
  unfold TokenBucket.consume
  split_ifs <;> rfl

lemma consume_tokens_true (b : TokenBucket) (n now : ℚ)
    (h : n ≤ (b.refill now).tokens) :
    (b.consume n now).1 = true ∧
      (b.consume n now).2.tokens = (b.refill now).tokens - n := by
  unfold TokenBucket.consume
  rw [if_pos h]
  exact ⟨rfl, rfl⟩

lemma consume_flag (b : TokenBucket) (n now : ℚ) :
    (b.consume n now).1 = true ↔ n ≤ (b.refill now).tokens := by
  unfold TokenBucket.consume
  split_ifs with h
  · simpa using h
  · simpa using h

/-- A queued request as the drain loop sees it: the identity of its
result future and its estimated token cost (line 303). -/
structure DrainReq where
  rid : Nat
  est : ℚ

/-- The result of one `_make_api_call`: the response text, or the
exception that `set_exception` would carry (identified by a code). -/
inductive CallResult where
  | ok : Str → CallResult
  | err : Nat → CallResult

/-- Observable events of one run of `_process_queue`: a sleep waiting
for the bucket to refill (emitted only when the wait is positive,
line 308) and the resolution of a request's future (lines 335 and 342 —
either outcome resolves the future exactly once). -/
inductive DrainEvent where
  | slept : ℚ → DrainEvent
  | resolved : Nat → CallResult → DrainEvent

/-- `ClaudeAPIQueue._process_queue` (lines 296-344) over a fixed queue
snapshot: for each request in order, compute the bucket wait for its
estimate, sleep that long when positive, consume the estimate (the
returned flag is discarded by the loop, line 325), perform the call and
resolve the future.  `respond` abstracts `_make_api_call` by request
identity. -/
def processQueue (respond : Nat → CallResult) :
    List DrainReq → TokenBucket → ℚ → List DrainEvent × TokenBucket × ℚ
  | [], b, now => ([], b, now)
  | r :: rest, b, now =>
      ((if 0 < (b.get_wait_time r.est now).1
          then [DrainEvent.slept (b.get_wait_time r.est now).1] else [])
        ++ DrainEvent.resolved r.rid (respond r.rid)
          :: (processQueue respond rest
                ((b.get_wait_time r.est now).2.consume r.est
                    (now + (b.get_wait_time r.est now).1)).2
                (now + (b.get_wait_time r.est now).1)).1,
        (processQueue respond rest
            ((b.get_wait_time r.est now).2.consume r.est
                (now + (b.get_wait_time r.est now).1)).2
            (now + (b.get_wait_time r.est now).1)).2)

/-- C8: when the bucket holds enough tokens to serve every queued
request immediately (their estimates sum to at most the balance, which
is within capacity), one run of the drain loop emits no sleep event and
resolves the result futures exactly in enqueue order — FIFO. -/
theorem claim_C8_fifo (respond : Nat → CallResult) :
    ∀ (reqs : List DrainReq) (b : TokenBucket) (now : ℚ),
    0 ≤ b.refill_rate → (∀ r ∈ reqs, 0 ≤ r.est) →
    (reqs.map DrainReq.est).sum ≤ b.tokens → b.tokens ≤ b.capacity →
    b.last_refill ≤ now →
    (processQueue respond reqs b now).1
      = reqs.map (fun r => DrainEvent.resolved r.rid (respond r.rid)) := by
  intro reqs
  induction reqs with
  | nil =>
      intro b now _ _ _ _ _
      rfl
  | cons r rest ih =>
      intro b now hrate hests hsum hcap hlast
      have hr0 : 0 ≤ r.est := hests r (List.mem_cons_self r rest)
      have hsum0 : 0 ≤ (rest.map DrainReq.est).sum := by
        apply List.sum_nonneg
        intro x hx
        obtain ⟨q, hq, hqx⟩ := List.mem_map.mp hx
        rw [← hqx]
        exact hests q (List.mem_cons_of_mem r hq)
      have hsum' : r.est + (rest.map DrainReq.est).sum ≤ b.tokens := by
        simpa using hsum
      have hest_le : r.est ≤ b.tokens := by linarith
      have htok_refill : b.tokens ≤ (b.refill now).tokens := by
        rw [refill_tokens]
        exact le_min hcap
          (le_add_of_nonneg_right (mul_nonneg (sub_nonneg.mpr hlast) hrate))
      have htop : (b.refill now).tokens ≤ b.capacity := by
        rw [refill_tokens]
        exact min_le_left _ _
      have hcond : r.est ≤ (b.refill now).tokens := le_trans hest_le htok_refill
      have hw : b.get_wait_time r.est now = (0, b.refill now) := by
        simp [TokenBucket.get_wait_time, hcond]
      have hrefill2 : ((b.refill now).refill (now + 0)).tokens
          = (b.refill now).tokens := by
        rw [refill_tokens]
        simp only [refill_capacity, refill_last, add_zero, sub_self, zero_mul]
        exact min_eq_right htop
      have hcondition : r.est ≤ ((b.refill now).refill (now + 0)).tokens := by
        rw [hrefill2]
        exact hcond
      obtain ⟨hflag, htoks⟩ := consume_tokens_true (b.refill now) r.est (now + 0)
        hcondition
      simp only [processQueue, hw, lt_self_iff_false, if_false, List.nil_append,
        List.map_cons]
      rw [ih _ (now + 0) ?_ ?_ ?_ ?_ ?_]
      · rw [consume_rate, refill_rate_eq]
        exact hrate
      · intro q hq
        exact hests q (List.mem_cons_of_mem r hq)
      · rw [htoks, hrefill2]
        linarith
      · rw [htoks, hrefill2, consume_capacity, refill_capacity]
        linarith
      · rw [consume_last]

/-- Witness for C8: two requests of 5 and 7 estimated tokens against
the full demo bucket of capacity 100 resolve in enqueue order with no
sleeping. -/
theorem claim_C8_fifo_witness :
    (processQueue (fun i => CallResult.ok [])
        [⟨1, 5⟩, ⟨2, 7⟩] waitDemoBucket 0).1
      = [DrainEvent.resolved 1 (CallResult.ok []),
          DrainEvent.resolved 2 (CallResult.ok [])] := by
  have h := claim_C8_fifo (fun i => CallResult.ok [])
    [⟨1, 5⟩, ⟨2, 7⟩] waitDemoBucket 0
    (by norm_num [waitDemoBucket])
    (by
      intro r hr
      simp only [List.mem_cons, List.not_mem_nil, or_false] at hr
      rcases hr with h | h <;> subst h <;> norm_num)
    (by norm_num [waitDemoBucket])
    (by norm_num [waitDemoBucket])
    (by norm_num [waitDemoBucket])
  simpa using h

/-- The loop body of `_process_large_request` (lines 186-224) over the
chunk list: the chunks are enqueued and awaited strictly in order —
`outcome i` abstracts enqueueing chunk `i` and the value or exception
its future is resolved with; a rejected future re-raises at the
`await`, aborting the loop before any later chunk is enqueued.  The
first component is the combined result (`"\n\n".join(results)` on
success, the first exception otherwise); the second counts the chunks
that were enqueued.  `acc` holds the completed chunk results in
reverse. -/
def processChunks (outcome : Nat → Except Nat Str) :
    Nat → List Str → List Str → Except Nat Str × Nat
  | i, [], acc => (Except.ok (joinSep sepPar acc.reverse), i)
  | i, _ :: rest, acc =>
      match outcome i with
      | Except.error e => (Except.error e, i + 1)
      | Except.ok r => processChunks outcome (i + 1) rest (r :: acc)

lemma processChunks_abort (outcome : Nat → Except Nat Str) :
    ∀ (k : Nat) (chunks acc : List Str) (i : Nat) (e : Nat),
    k < chunks.length →
    (∀ j, j < k → ∃ r, outcome (i + j) = Except.ok r) →
    outcome (i + k) = Except.error e →
    processChunks outcome i chunks acc = (Except.error e, i + k + 1) := by
  intro k
  induction k with
  | zero =>
      intro chunks acc i e hk hok herr
      cases chunks with
      | nil => simp at hk
      | cons c rest =>
          have h0 : outcome i = Except.error e := by simpa using herr
          simp [processChunks, h0]
  | succ k ih =>
      intro chunks acc i e hk hok herr
      cases chunks with
      | nil => simp at hk
      | cons c rest =>
          obtain ⟨r, hr⟩ := hok 0 (Nat.succ_pos k)
          have hr' : outcome i = Except.ok r := by simpa using hr
          simp only [processChunks, hr']
          have hok2 : ∀ j, j < k → ∃ r2, outcome (i + 1 + j) = Except.ok r2 := by
            intro j hj
            obtain ⟨r2, hr2⟩ := hok (j + 1) (by omega)
            refine ⟨r2, ?_⟩
            rw [show i + 1 + j = i + (j + 1) by omega]
            exact hr2
          have herr2 : outcome (i + 1 + k) = Except.error e := by
            rw [show i + 1 + k = i + (k + 1) by omega]
            exact herr
          rw [ih rest (r :: acc) (i + 1) e (by simpa using hk) hok2 herr2]
          rw [show i + 1 + k + 1 = i + (k + 1) + 1 by omega]

/-- C9: if the first chunk failure of a chunked submission happens at
index `k`, the coordinator loop propagates exactly that exception as
the single result of the submission, enqueues only chunks 0..k (it
aborts before enqueueing any later chunk), and discards the completed
results of chunks before `k` — in particular it never returns partial
concatenated text. -/
theorem claim_C9_chunk_abort (outcome : Nat → Except Nat Str) (chunks : List Str)
    (k e : Nat) (hk : k < chunks.length)
    (hok : ∀ j, j < k → ∃ r, outcome j = Except.ok r)
    (herr : outcome k = Except.error e) :
    (processChunks outcome 0 chunks []).1 = Except.error e ∧
      (processChunks outcome 0 chunks []).2 = k + 1 := by
  have h := processChunks_abort outcome k chunks [] 0 e hk
    (by intro j hj; simpa using hok j hj) (by simpa using herr)
  rw [h]
  exact ⟨rfl, by omega⟩

/-- Witness for C9: three chunks whose second future is rejected with
exception 7; the submission yields exception 7 after enqueueing only
two of the three chunks. -/
theorem claim_C9_chunk_abort_witness :
    (processChunks (fun j => if j = 1 then Except.error 7 else Except.ok ['x'])
        0 [['a'], ['b'], ['c']] []).1 = Except.error 7 ∧
      (processChunks (fun j => if j = 1 then Except.error 7 else Except.ok ['x'])
        0 [['a'], ['b'], ['c']] []).2 = 1 + 1 := by
  have h := claim_C9_chunk_abort
    (fun j => if j = 1 then Except.error 7 else Except.ok ['x'])
    [['a'], ['b'], ['c']] 1 7 (by norm_num)
    (by
      intro j hj
      interval_cases j
      exact ⟨['x'], rfl⟩)
    rfl
  exact h

/-- One drain cycle of `_process_queue` for the head request
(lines 306-325): compute the bucket wait for the estimate, sleep that
long, then consume the estimate; the returned consume flag is discarded
by the loop (line 325), which proceeds to the network call regardless.
Returns the consume flag and the bucket after the cycle. -/
def drainStep (b : TokenBucket) (now est : ℚ) : Bool × TokenBucket :=
  (b.get_wait_time est now).2.consume est (now + (b.get_wait_time est now).1)

/-- C10 counterexample: for a bucket of capacity 100 (10 tokens per
second, full) and a head request estimated at 200 tokens, the drain
cycle sleeps the computed 10 seconds and then the consume step still
fails — its failure branch is reachable — leaving the balance at 100,
not decremented by 200; the loop nevertheless proceeds to the network
call because it discards the flag. -/
theorem claim_C10_counterexample :
    (drainStep waitDemoBucket 0 200).1 = false ∧
      (drainStep waitDemoBucket 0 200).2.tokens = 100 := by
  constructor <;>
    norm_num [drainStep, waitDemoBucket, TokenBucket.get_wait_time,
      TokenBucket.consume, TokenBucket.refill]

/-- C10 amended: provided the request's estimated tokens do not exceed
the bucket capacity and the refill rate is positive, after the drain
cycle's sleep the consume succeeds and the balance decreases by exactly
the estimate from the refilled balance, before the network call; for
larger estimates the consume fails but the loop ignores the returned
False and calls the network anyway with the bucket undecremented. -/
theorem claim_C10_consume (b : TokenBucket) (now est : ℚ)
    (hrate : 0 < b.refill_rate) (hest : est ≤ b.capacity) :
    (drainStep b now est).1 = true ∧
      (drainStep b now est).2.tokens
        = (((b.get_wait_time est now).2).refill
            (now + (b.get_wait_time est now).1)).tokens - est := by
  have hflag : (drainStep b now est).1 = true :=
    wait_then_consume b est now hrate hest
  refine ⟨hflag, ?_⟩
  have hcond := (consume_flag _ _ _).mp hflag
  exact (consume_tokens_true _ _ _ hcond).2

/-- Witness for the amended C10: an estimate of 90 against the full
demo bucket of capacity 100. -/
theorem claim_C10_consume_witness :
    (drainStep waitDemoBucket 0 90).1 = true ∧
      (drainStep waitDemoBucket 0 90).2.tokens
        = (((waitDemoBucket.get_wait_time 90 0).2).refill
            (0 + (waitDemoBucket.get_wait_time 90 0).1)).tokens - 90 :=
  claim_C10_consume waitDemoBucket 0 90 (by norm_num [waitDemoBucket])
    (by norm_num [waitDemoBucket])

/-- A request as a caller submits it in the concurrency model: the
identity of its result future and its estimated token cost. -/
structure SimReq where
  rid : Nat
  est : Nat

/-- The tasks of the cooperative scheduling model, each identified by
the atomic code segment it will run next.  `caller r` is an
`add_request` invocation about to run its synchronous prefix
(lines 126-153: enqueue, check the `processing` flag, maybe
`asyncio.create_task` a drain loop) before suspending on its future;
`drainNew` is a drain task that has been created but has not started;
`drainLoop` is the drain loop resumed at the top of its while loop;
`drainWake` is the drain loop resumed after its rate-limit sleep. -/
inductive SimTask where
  | caller : SimReq → SimTask
  | drainNew : SimTask
  | drainLoop : SimTask
  | drainWake : SimTask

/-- A configuration of the cooperative scheduler: the event-loop FIFO
of ready tasks, the shared queue list, the `processing` flag, the
bucket balance (an integer token count; no wall-clock time passes in
the schedules considered, so refills add nothing and the computed wait
is zero exactly when the estimate fits the balance), the identities of
requests whose network calls are in flight (oldest first), and the
identities of resolved futures in resolution order. -/
structure SimConfig where
  ready : List SimTask
  queue : List SimReq
  processing : Bool
  tokens : Nat
  inCall : List Nat
  resolved : List Nat

/-- The drain loop's segment from the top of its while loop
(lines 300-332): exit and clear the flag if the queue is empty
(line 344); otherwise compute the wait for the head request, and either
suspend in `asyncio.sleep` (becoming `drainWake`) or pop the head,
consume its tokens and suspend in the network call. -/
def drainBody (c : SimConfig) (rest : List SimTask) : SimConfig :=
  match c.queue with
  | [] => { c with ready := rest, processing := false }
  | r :: qs =>
      if r.est ≤ c.tokens then
        { c with ready := rest, queue := qs, tokens := c.tokens - r.est,
                 inCall := c.inCall ++ [r.rid] }
      else
        { c with ready := rest ++ [SimTask.drainWake] }

/-- The drain loop's segment after its rate-limit sleep
(lines 314-332): pop the head unconditionally, consume (the balance is
unchanged when the consume fails, and the returned flag is discarded)
and suspend in the network call.  The empty-queue case mirrors the
loop exit and is unreachable in the schedules considered. -/
def drainWakeBody (c : SimConfig) (rest : List SimTask) : SimConfig :=
  match c.queue with
  | [] => { c with ready := rest, processing := false }
  | r :: qs =>
      { c with ready := rest, queue := qs,
               tokens := if r.est ≤ c.tokens then c.tokens - r.est else c.tokens,
               inCall := c.inCall ++ [r.rid] }

/-- One deterministic step of the cooperative scheduler: run the first
ready task up to its next suspension point (asyncio runs ready tasks in
FIFO order, and a task created by `asyncio.create_task` is appended to
the ready queue without running — in particular the `processing` flag
is still False when a second caller checks it before the first drain
task has started).  When no task is ready, the oldest in-flight network
call completes: the request's future is resolved and its drain loop
resumes at the top of the while loop. -/
def simStep (c : SimConfig) : SimConfig :=
  match c.ready with
  | SimTask.caller r :: rest =>
      if c.processing then
        { c with ready := rest, queue := c.queue ++ [r] }
      else
        { c with ready := rest ++ [SimTask.drainNew], queue := c.queue ++ [r] }
  | SimTask.drainNew :: rest => drainBody { c with processing := true } rest
  | SimTask.drainLoop :: rest => drainBody c rest
  | SimTask.drainWake :: rest => drainWakeBody c rest
  | [] =>
      match c.inCall with
      | [] => c
      | i :: is =>
          { c with inCall := is, resolved := c.resolved ++ [i],
                   ready := [SimTask.drainLoop] }

/-- Iterate the scheduler. -/
def simRun (c : SimConfig) : Nat → SimConfig
  | 0 => c
  | n + 1 => simRun (simStep c) n

/-- Two callers whose `add_request` prefixes both run before the drain
task created by the first caller ever starts — the schedule produced,
for example, by starting both submissions with `asyncio.gather`. -/
def raceInit : SimConfig :=
  { ready := [SimTask.caller ⟨1, 5⟩, SimTask.caller ⟨2, 5⟩], queue := [],
    processing := false, tokens := 1000, inCall := [], resolved := [] }

/-- One caller running alone, with a second caller arriving only after
the first drain task has started and taken the first request into its
network call. -/
def seqInit : SimConfig :=
  { ready := [SimTask.caller ⟨1, 5⟩], queue := [], processing := false,
    tokens := 1000, inCall := [], resolved := [] }

/-- The sequential scenario two steps in, when the second caller's
`add_request` prefix becomes ready: the drain loop is now running
(`processing` is True), so the flag prevents a duplicate loop. -/
def seqMid : SimConfig :=
  { simRun seqInit 2 with
      ready := (simRun seqInit 2).ready ++ [SimTask.caller ⟨2, 5⟩] }

/-- C1 counterexample: with two callers interleaved before the first
drain task starts (`raceInit`), both `add_request` prefixes observe
`processing = False` — the flag is only set when a drain task runs, not
when it is created — so each schedules a drain loop; after four
scheduler steps both loops are suspended inside `_make_api_call`
simultaneously: two network calls from the same queue instance are in
flight, refuting the claim that at most one is in flight at any time. -/
theorem claim_C1_counterexample :
    (simRun raceInit 4).inCall.length = 2 ∧
      ¬ (∀ k : Nat, (simRun raceInit k).inCall.length ≤ 1) := by
  constructor
  · decide
  · intro hall
    exact absurd (hall 4) (by decide)

/-- C1 amended: the `processing` flag prevents a duplicate drain loop
only when every `add_request` that finds the flag False runs while no
created-but-unstarted drain task is pending.  In the schedule where a
second caller enqueues after the first drain loop has started
(`seqMid`), the flag stops the second spawn, a single loop serves both
requests, at most one network call is in flight at every step, and the
two futures resolve in order; two enqueues interleaved before the
first drain task runs, however, each spawn a loop and their calls
overlap. -/
theorem claim_C1_single_flight :
    ((List.range 13).all fun k =>
        decide ((simRun seqMid k).inCall.length ≤ 1)) = true ∧
      ((List.range 3).all fun k =>
        decide ((simRun seqInit k).inCall.length ≤ 1)) = true ∧
      (simRun seqMid 5).resolved = [1, 2] ∧
      (simRun seqMid 5).processing = false := by
  refine ⟨by decide, by decide, by decide, by decide⟩
